import Mathlib

/-!
Shallow embedding of `src/bss/ilrma.py` (ILRMA blind source separation).

Numpy complex arrays are modelled as functions over `Fin`-indexed axes with
entries in `CQ`, complex numbers with rational parts (exact arithmetic stands
in for IEEE floats).  The transcendental primitives of numpy that the code
uses (`np.sqrt` on reals and on complex values, `np.log`, `np.linalg.cond`)
and the external collaborator `projection_back` are parameters of the
embedding, collected in the `NumPrim` structure; theorems hypothesise only
the properties of these primitives that the concrete claims need.
-/

/-- Complex numbers with rational real and imaginary parts: the exact model of
numpy `complex128` scalars. -/
structure CQ where
  re : ℚ
  im : ℚ
deriving DecidableEq

namespace CQ

@[ext] theorem ext : ∀ {z w : CQ}, z.re = w.re → z.im = w.im → z = w
  | ⟨_, _⟩, ⟨_, _⟩, rfl, rfl => rfl

/-- Embedding of a rational (real) scalar as a complex scalar. -/
def oR (q : ℚ) : CQ := ⟨q, 0⟩

instance : Zero CQ := ⟨⟨0, 0⟩⟩
instance : One CQ := ⟨⟨1, 0⟩⟩
instance : Add CQ := ⟨fun z w => ⟨z.re + w.re, z.im + w.im⟩⟩
instance : Neg CQ := ⟨fun z => ⟨-z.re, -z.im⟩⟩
instance : Mul CQ := ⟨fun z w => ⟨z.re * w.re - z.im * w.im, z.re * w.im + z.im * w.re⟩⟩

@[simp] theorem zero_re : (0 : CQ).re = 0 := rfl
@[simp] theorem zero_im : (0 : CQ).im = 0 := rfl
@[simp] theorem one_re : (1 : CQ).re = 1 := rfl
@[simp] theorem one_im : (1 : CQ).im = 0 := rfl
@[simp] theorem add_re (z w : CQ) : (z + w).re = z.re + w.re := rfl
@[simp] theorem add_im (z w : CQ) : (z + w).im = z.im + w.im := rfl
@[simp] theorem neg_re (z : CQ) : (-z).re = -z.re := rfl
@[simp] theorem neg_im (z : CQ) : (-z).im = -z.im := rfl
@[simp] theorem mul_re (z w : CQ) : (z * w).re = z.re * w.re - z.im * w.im := rfl
@[simp] theorem mul_im (z w : CQ) : (z * w).im = z.re * w.im + z.im * w.re := rfl

instance : CommRing CQ where
  add_assoc := by intros; ext <;> simp <;> ring
  zero_add := by intros; ext <;> simp
  add_zero := by intros; ext <;> simp
  add_comm := by intros; ext <;> simp <;> ring
  mul_assoc := by intros; ext <;> simp <;> ring
  one_mul := by intros; ext <;> simp
  mul_one := by intros; ext <;> simp
  left_distrib := by intros; ext <;> simp <;> ring
  right_distrib := by intros; ext <;> simp <;> ring
  mul_comm := by intros; ext <;> simp <;> ring
  zero_mul := by intros; ext <;> simp
  mul_zero := by intros; ext <;> simp
  neg_add_cancel := by intros; ext <;> simp
  nsmul := nsmulRec
  zsmul := zsmulRec

/-- Complex conjugate (`np.conj`). -/
def conj (z : CQ) : CQ := ⟨z.re, -z.im⟩

/-- Squared magnitude: `np.abs(z)**2 = re^2 + im^2`, an exact rational. -/
def normSq (z : CQ) : ℚ := z.re * z.re + z.im * z.im

/-- Division of a complex value by a real scalar (numpy broadcasting of
`complex / real`). -/
def divR (z : CQ) (q : ℚ) : CQ := ⟨z.re / q, z.im / q⟩

/-- Multiplicative inverse `conj z / |z|^2`; total, sending 0 to 0. -/
def inv (z : CQ) : CQ := ⟨z.re / normSq z, -z.im / normSq z⟩

/-- Complex division as numpy performs it: `z / w = z * conj w / |w|^2`. -/
def div (z w : CQ) : CQ := z * inv w

@[simp] theorem conj_re (z : CQ) : (conj z).re = z.re := rfl
@[simp] theorem conj_im (z : CQ) : (conj z).im = -z.im := rfl

theorem normSq_nonneg (z : CQ) : 0 ≤ normSq z := by
  have h1 : 0 ≤ z.re * z.re := mul_self_nonneg _
  have h2 : 0 ≤ z.im * z.im := mul_self_nonneg _
  simpa [normSq] using add_nonneg h1 h2

theorem normSq_eq_zero {z : CQ} (h : normSq z = 0) : z = 0 := by
  have h1 : 0 ≤ z.re * z.re := mul_self_nonneg _
  have h2 : 0 ≤ z.im * z.im := mul_self_nonneg _
  simp only [normSq] at h
  have hre : z.re * z.re = 0 := by linarith
  have him : z.im * z.im = 0 := by linarith
  ext
  · exact mul_self_eq_zero.mp hre
  · exact mul_self_eq_zero.mp him

theorem normSq_ne_zero {z : CQ} (h : z ≠ 0) : normSq z ≠ 0 :=
  fun hz => h (normSq_eq_zero hz)

theorem mul_inv_cancel {z : CQ} (h : z ≠ 0) : z * inv z = 1 := by
  have hn : normSq z ≠ 0 := normSq_ne_zero h
  ext
  · show z.re * (z.re / normSq z) - z.im * (-z.im / normSq z) = 1
    field_simp
    simp [normSq]
  · show z.re * (-z.im / normSq z) + z.im * (z.re / normSq z) = 0
    field_simp
    ring

theorem div_self {z : CQ} (h : z ≠ 0) : div z z = 1 := mul_inv_cancel h

@[simp] theorem div_one (z : CQ) : div z 1 = z := by
  ext <;> simp [div, inv, normSq]

@[simp] theorem divR_one (z : CQ) : divR z 1 = z := by
  ext <;> simp [divR]

end CQ

@[simp] theorem CQ_conj_one : CQ.conj 1 = 1 := by
  apply CQ.ext <;> simp [CQ.conj]

/-!
Primitives of numpy that are irrational over ℚ, taken as parameters of the
embedding.  `sq` models `np.sqrt` on real (float64) values, `csq` models
`np.sqrt` on complex values, `logQ` models `np.log`, and `condQ` models
`np.linalg.cond` (2-norm condition number).  `projBack` models the external
collaborator `algorithm.projection_back.projection_back`.
-/

/-- Bundle of the numeric primitives the Python code calls out to. -/
structure NumPrim where
  sq : ℚ → ℚ
  csq : CQ → CQ
  logQ : ℚ → ℚ
  condQ : (n : ℕ) → Matrix (Fin n) (Fin n) CQ → ℚ
  projBack : (n f t : ℕ) → (Fin n → Fin f → Fin t → CQ) → (Fin f → Fin t → CQ) →
    (Fin n → Fin f → CQ)

/-- `EPS = 1e-12` from the top of `ilrma.py`. -/
def epsDefault : ℚ := 1 / 10 ^ 12

/-- `THRESHOLD = 1e+12` from the top of `ilrma.py`. -/
def thresholdDefault : ℚ := 10 ^ 12

/-- Epsilon flooring `x[x < eps] = eps`, the idiom used throughout the file:
applied elementwise it replaces every entry below `eps` by `eps`. -/
def flr (eps x : ℚ) : ℚ := if x < eps then eps else x

theorem flr_ge (eps x : ℚ) : eps ≤ flr eps x := by
  by_cases h : x < eps <;> simp [flr, h]
  linarith

theorem flr_of_ge {eps x : ℚ} (h : eps ≤ x) : flr eps x = x := by
  simp [flr, not_lt.mpr h]

/-- Normalization-mode configuration: Python's `normalize` attribute, which is
`False`, the string `power`, or the string `projection-back`. -/
inductive NormMode
  | off
  | power
  | projBack
deriving DecidableEq

/-- Configuration fixed by `GaussILRMA.__init__` (and `ILRMAbase.__init__`).
`nBases` is recorded as data (array shapes are type-level `K` here). -/
structure GCfg where
  nBases : ℕ
  partitioning : Bool
  normalize : NormMode
  referenceId : ℕ
  eps : ℚ
  threshold : ℚ
deriving DecidableEq

/-- Driver state of a `GaussILRMA` object with `N` sources (= channels),
`F` frequency bins, `T` frames and `K` bases.  Both the unconstrained fields
(`base`, `act`) and the partitioned fields (`baseP`, `actP`, `latent`) are
carried; `cfg.partitioning` selects which set the updates touch, mirroring
Python's dynamically attached attributes. -/
structure GState (N F T K : ℕ) where
  X : Fin N → Fin F → Fin T → CQ
  W : Fin F → Matrix (Fin N) (Fin N) CQ
  base : Fin N → Fin F → Fin K → ℚ
  act : Fin N → Fin K → Fin T → ℚ
  baseP : Fin F → Fin K → ℚ
  actP : Fin K → Fin T → ℚ
  latent : Fin N → Fin K → ℚ
  losses : List ℚ

/-- `ILRMAbase.separate`: per bin `f`, the output column vectors are
`demix_filter[f]` applied to the mixture column vectors
(`estimation = demix_filter @ input` after the axis transpositions). -/
def separate {N F T : ℕ} (input : Fin N → Fin F → Fin T → CQ)
    (demixFilter : Fin F → Matrix (Fin N) (Fin N) CQ) :
    Fin N → Fin F → Fin T → CQ :=
  fun s f t => ∑ c, demixFilter f s c * input c f t

/-- Power spectrogram `P = np.abs(Y)**2`. -/
def powSpec {N F T : ℕ} (Y : Fin N → Fin F → Fin T → CQ) :
    Fin N → Fin F → Fin T → ℚ :=
  fun s f t => CQ.normSq (Y s f t)

/-- Per-bin identity demixing filter `np.eye(n_sources, n_channels)` tiled
over bins, as built by `ILRMAbase._reset`. -/
def identFilter (N F : ℕ) : Fin F → Matrix (Fin N) (Fin N) CQ := fun _ => 1

/-- Claim C8: applying the Separation Operator with a per-bin identity
demixing filter returns the mixture unchanged, channel for channel. -/
theorem separate_identFilter {N F T : ℕ} (X : Fin N → Fin F → Fin T → CQ) :
    separate X (identFilter N F) = X := by
  funext s f t
  simp [separate, identFilter, Matrix.one_apply, ite_mul, zero_mul, one_mul]

/-!
Constructors.  Python constructors that can raise are modelled as
`Except String`-valued; a raised exception becomes `Except.error` carrying the
exception text.  `GaussILRMA.__init__` performs no validation and never
raises, so `gaussInit` always returns `Except.ok`.
-/

/-- `GaussILRMA.__init__(n_bases, partitioning, normalize, reference_id,
callback, eps, threshold)`: stores the configuration; no validation. -/
def gaussInit (nBases : ℕ) (partitioning : Bool) (normalize : NormMode)
    (referenceId : ℕ) (eps threshold : ℚ) : Except String GCfg :=
  Except.ok ⟨nBases, partitioning, normalize, referenceId, eps, threshold⟩

/-- Configuration of a `tILRMA` object (`nu` is the degrees of freedom). -/
structure TCfg where
  nBases : ℕ
  nu : ℚ
  partitioning : Bool
  normalize : NormMode
  referenceId : ℕ
  eps : ℚ
deriving DecidableEq

/-- `tILRMA.__init__`: stores the configuration; no validation, no raise. -/
def tInit (nBases : ℕ) (nu : ℚ) (partitioning : Bool) (normalize : NormMode)
    (referenceId : ℕ) (eps : ℚ) : Except String TCfg :=
  Except.ok ⟨nBases, nu, partitioning, normalize, referenceId, eps⟩

/-- `KLILRMA.__init__`: after storing the configuration it unconditionally
raises `NotImplementedError("Implement KL-ILRMA")`. -/
def klInit (nBases : ℕ) (partitioning : Bool) (normalize : NormMode)
    (referenceId : ℕ) (eps : ℚ) : Except String GCfg :=
  let _cfg : GCfg := ⟨nBases, partitioning, normalize, referenceId, eps, thresholdDefault⟩
  Except.error "NotImplementedError: Implement KL-ILRMA"

/-- `RegularizedILRMA.__init__`: after storing the configuration it
unconditionally raises `NotImplementedError("Implement Regularized ILRMA")`. -/
def regInit (nBases : ℕ) (partitioning : Bool) (normalize : NormMode)
    (referenceId : ℕ) (eps : ℚ) : Except String GCfg :=
  let _cfg : GCfg := ⟨nBases, partitioning, normalize, referenceId, eps, thresholdDefault⟩
  Except.error "NotImplementedError: Implement Regularized ILRMA"

/-- `tILRMA.update_source_model`: computes `Y` and `P`, then unconditionally
raises `NotImplementedError("Implement update_source_model.")` before any of
the (dead) update code below the raise. -/
def tUpdateSourceModel (N F T K : ℕ) (st : GState N F T K) : Except String (GState N F T K) :=
  let Y := separate st.X st.W
  let _P := powSpec Y
  Except.error "NotImplementedError: Implement update_source_model."

/-!
Unconstrained Gaussian source-model update (`GaussILRMA.update_source_model`,
`else` branch, lines 243-264).  Alongside the updated factors we expose the
intermediate quantities so theorems can speak about them, and a list of every
denominator that the numpy code divides by (for the flooring claim).
-/

/-- `TV = T @ V` per source: the low-rank PSD model. -/
def tvProd {N F T K : ℕ} (base : Fin N → Fin F → Fin K → ℚ)
    (act : Fin N → Fin K → Fin T → ℚ) : Fin N → Fin F → Fin T → ℚ :=
  fun s f t => ∑ k, base s f k * act s k t

/-- First half of the unconstrained update (`# Update bases`): the new `T`.
`T ← T * sqrt((P/TV²) @ Vᵀ / ((1/TV) @ Vᵀ))` with `TV` floored at `eps` and
the denominator `TVV` floored at `eps`. -/
def gaussBaseNew {N F T K : ℕ} (pr : NumPrim) (eps : ℚ)
    (P : Fin N → Fin F → Fin T → ℚ) (base : Fin N → Fin F → Fin K → ℚ)
    (act : Fin N → Fin K → Fin T → ℚ) : Fin N → Fin F → Fin K → ℚ :=
  let TV := fun s f t => flr eps (tvProd base act s f t)
  let division := fun s f t => P s f t / (TV s f t * TV s f t)
  let TVinv := fun s f t => 1 / TV s f t
  let TVV := fun s f k => flr eps (∑ t, TVinv s f t * act s k t)
  fun s f k => base s f k * pr.sq ((∑ t, division s f t * act s k t) / TVV s f k)

/-- Second half of the unconstrained update (`# Update activations`): the new
`V`, computed from the already-updated `T`. -/
def gaussActNew {N F T K : ℕ} (pr : NumPrim) (eps : ℚ)
    (P : Fin N → Fin F → Fin T → ℚ) (base1 : Fin N → Fin F → Fin K → ℚ)
    (act : Fin N → Fin K → Fin T → ℚ) : Fin N → Fin K → Fin T → ℚ :=
  let TV := fun s f t => flr eps (tvProd base1 act s f t)
  let division := fun s f t => P s f t / (TV s f t * TV s f t)
  let TVinv := fun s f t => 1 / TV s f t
  let TTV := fun s k t => flr eps (∑ f, base1 s f k * TVinv s f t)
  fun s k t => act s k t * pr.sq ((∑ f, base1 s f k * division s f t) / TTV s k t)

/-- Every denominator the unconstrained source-model update divides by, in
program order: `TV**2` (in `P / TV**2`), `TV` (in `1 / TV`), and the floored
ratio denominators `TVV` and `TTV`, for the bases pass and then the
activations pass. -/
def gaussSrcDivisors {N F T K : ℕ} (eps : ℚ)
    (P : Fin N → Fin F → Fin T → ℚ) (base : Fin N → Fin F → Fin K → ℚ)
    (act : Fin N → Fin K → Fin T → ℚ) (pr : NumPrim) : List ℚ :=
  let TV := fun s f t => flr eps (tvProd base act s f t)
  let TVinv := fun s f t => 1 / TV s f t
  let TVV := fun s f k => flr eps (∑ t, TVinv s f t * act s k t)
  let base1 := gaussBaseNew pr eps P base act
  let TV2 := fun s f t => flr eps (tvProd base1 act s f t)
  let TVinv2 := fun s f t => 1 / TV2 s f t
  let TTV := fun s k t => flr eps (∑ f, base1 s f k * TVinv2 s f t)
  ((List.finRange N).flatMap fun s => (List.finRange F).flatMap fun f =>
    (List.finRange T).map fun t => TV s f t * TV s f t) ++
  ((List.finRange N).flatMap fun s => (List.finRange F).flatMap fun f =>
    (List.finRange T).map fun t => TV s f t) ++
  ((List.finRange N).flatMap fun s => (List.finRange F).flatMap fun f =>
    (List.finRange K).map fun k => TVV s f k) ++
  ((List.finRange N).flatMap fun s => (List.finRange F).flatMap fun f =>
    (List.finRange T).map fun t => TV2 s f t * TV2 s f t) ++
  ((List.finRange N).flatMap fun s => (List.finRange F).flatMap fun f =>
    (List.finRange T).map fun t => TV2 s f t) ++
  ((List.finRange N).flatMap fun s => (List.finRange K).flatMap fun k =>
    (List.finRange T).map fun t => TTV s k t)

/-!
Partitioned Gaussian source-model update (`GaussILRMA.update_source_model`,
`if self.partitioning` branch, lines 204-242).  Order: latent `Z`, then the
shared bases `T`, then the shared activations `V`.
-/

/-- `ZTV[s,f,t] = Σ_k Z[s,k]·T[f,k]·V[k,t]`: the partitioned PSD model. -/
def ztvProd {N F T K : ℕ} (latent : Fin N → Fin K → ℚ) (baseP : Fin F → Fin K → ℚ)
    (actP : Fin K → Fin T → ℚ) : Fin N → Fin F → Fin T → ℚ :=
  fun s f t => ∑ k, latent s k * baseP f k * actP k t

/-- Numerator of the latent update:
`Σ_{f,t} (P/ZTV²)[s,f,t] · (T·V)[f,k,t]` (with `ZTV` floored at `eps`). -/
def latentNum {N F T K : ℕ} (eps : ℚ) (P : Fin N → Fin F → Fin T → ℚ)
    (latent : Fin N → Fin K → ℚ) (baseP : Fin F → Fin K → ℚ)
    (actP : Fin K → Fin T → ℚ) : Fin N → Fin K → ℚ :=
  let ZTV := fun s f t => flr eps (ztvProd latent baseP actP s f t)
  fun s k => ∑ f, ∑ t, P s f t / (ZTV s f t * ZTV s f t) * (baseP f k * actP k t)

/-- Denominator of the latent update, floored at `eps`:
`Σ_{f,t} (1/ZTV)[s,f,t] · (T·V)[f,k,t]`. -/
def latentDen {N F T K : ℕ} (eps : ℚ) (latent : Fin N → Fin K → ℚ)
    (baseP : Fin F → Fin K → ℚ) (actP : Fin K → Fin T → ℚ) : Fin N → Fin K → ℚ :=
  let ZTV := fun s f t => flr eps (ztvProd latent baseP actP s f t)
  fun s k => flr eps (∑ f, ∑ t, 1 / ZTV s f t * (baseP f k * actP k t))

/-- `Z = np.sqrt(numerator / denominator)`: the latent update replaces `Z`
by the square root of the ratio (it is not multiplicative). -/
def latentRaw {N F T K : ℕ} (pr : NumPrim) (eps : ℚ) (P : Fin N → Fin F → Fin T → ℚ)
    (latent : Fin N → Fin K → ℚ) (baseP : Fin F → Fin K → ℚ)
    (actP : Fin K → Fin T → ℚ) : Fin N → Fin K → ℚ :=
  fun s k => pr.sq (latentNum eps P latent baseP actP s k / latentDen eps latent baseP actP s k)

/-- `Z = Z / Z.sum(axis=0)`: renormalize each basis column to sum to 1 over
sources.  The column sum is not floored before this division. -/
def latentNew {N F T K : ℕ} (pr : NumPrim) (eps : ℚ) (P : Fin N → Fin F → Fin T → ℚ)
    (latent : Fin N → Fin K → ℚ) (baseP : Fin F → Fin K → ℚ)
    (actP : Fin K → Fin T → ℚ) : Fin N → Fin K → ℚ :=
  fun s k => latentRaw pr eps P latent baseP actP s k /
    (∑ s2, latentRaw pr eps P latent baseP actP s2 k)

/-- `# Update bases` of the partitioned branch: multiplicative update of the
shared `T`, using the already-updated latent `Z1`. -/
def basePNew {N F T K : ℕ} (pr : NumPrim) (eps : ℚ) (P : Fin N → Fin F → Fin T → ℚ)
    (Z1 : Fin N → Fin K → ℚ) (baseP : Fin F → Fin K → ℚ)
    (actP : Fin K → Fin T → ℚ) : Fin F → Fin K → ℚ :=
  let ZTV := fun s f t => flr eps (ztvProd Z1 baseP actP s f t)
  let num := fun f k => ∑ s, ∑ t, P s f t / (ZTV s f t * ZTV s f t) * (Z1 s k * actP k t)
  let den := fun f k => flr eps (∑ s, ∑ t, 1 / ZTV s f t * (Z1 s k * actP k t))
  fun f k => baseP f k * pr.sq (num f k / den f k)

/-- `# Update activations` of the partitioned branch: multiplicative update of
the shared `V`, using the updated latent `Z1` and bases `T1`. -/
def actPNew {N F T K : ℕ} (pr : NumPrim) (eps : ℚ) (P : Fin N → Fin F → Fin T → ℚ)
    (Z1 : Fin N → Fin K → ℚ) (T1 : Fin F → Fin K → ℚ)
    (actP : Fin K → Fin T → ℚ) : Fin K → Fin T → ℚ :=
  let ZTV := fun s f t => flr eps (ztvProd Z1 T1 actP s f t)
  let num := fun k t => ∑ s, ∑ f, P s f t / (ZTV s f t * ZTV s f t) * (Z1 s k * T1 f k)
  let den := fun k t => flr eps (∑ s, ∑ f, 1 / ZTV s f t * (Z1 s k * T1 f k))
  fun k t => actP k t * pr.sq (num k t / den k t)

/-- `GaussILRMA.update_source_model`: dispatch on `cfg.partitioning`, writing
the updated factors back into the state. -/
def gaussUpdateSourceModel {N F T K : ℕ} (pr : NumPrim) (cfg : GCfg)
    (st : GState N F T K) : GState N F T K :=
  let Y := separate st.X st.W
  let P := powSpec Y
  if cfg.partitioning then
    let Z1 := latentNew pr cfg.eps P st.latent st.baseP st.actP
    let T1 := basePNew pr cfg.eps P Z1 st.baseP st.actP
    let V1 := actPNew pr cfg.eps P Z1 T1 st.actP
    ⟨st.X, st.W, st.base, st.act, T1, V1, Z1, st.losses⟩
  else
    let T1 := gaussBaseNew pr cfg.eps P st.base st.act
    let V1 := gaussActNew pr cfg.eps P T1 st.act
    ⟨st.X, st.W, T1, V1, st.baseP, st.actP, st.latent, st.losses⟩

/-!
Spatial model update (`GaussILRMA.update_space_model`, lines 266-308).
`np.linalg.solve` on the per-bin batch raises `LinAlgError` when any matrix of
the batch is singular; on a nonsingular matrix it returns the exact solution,
modelled here through the adjugate.
-/

/-- Exact linear solve `w = M⁻¹ v` via Cramer / adjugate; meaningful only when
`det M ≠ 0` (the embedding of a successful `np.linalg.solve`). -/
def solveM {n : ℕ} (M : Matrix (Fin n) (Fin n) CQ) (v : Fin n → CQ) : Fin n → CQ :=
  fun i => CQ.div (M.adjugate.mulVec v i) M.det

/-- Unit selector vector `e_s` (row `s` of `np.eye(n_sources, n_channels)`). -/
def unitVec {n : ℕ} (s : Fin n) : Fin n → CQ := fun i => if i = s then 1 else 0

theorem solveM_mulVec {n : ℕ} {M : Matrix (Fin n) (Fin n) CQ} (h : M.det ≠ 0)
    (v : Fin n → CQ) : M.mulVec (solveM M v) = v := by
  funext j
  have hadj : M * M.adjugate = M.det • 1 := Matrix.mul_adjugate M
  have key : M.mulVec (M.adjugate.mulVec v) = M.det • v := by
    rw [Matrix.mulVec_mulVec, hadj]
    funext i
    simp [Matrix.smul_mulVec_assoc, Matrix.one_mulVec]
  have expand : M.mulVec (solveM M v) j
      = (∑ i, M j i * M.adjugate.mulVec v i) * CQ.inv M.det := by
    simp only [Matrix.mulVec, Matrix.dotProduct, solveM, CQ.div]
    rw [Finset.sum_mul]
    refine Finset.sum_congr rfl fun i _ => by ring
  have keyj : (∑ i, M j i * M.adjugate.mulVec v i) = M.det * v j := by
    have := congrFun key j
    simpa [Matrix.mulVec, Matrix.dotProduct, Pi.smul_apply, smul_eq_mul] using this
  rw [expand, keyj, mul_assoc, mul_comm (v j) (CQ.inv M.det), ← mul_assoc,
    CQ.mul_inv_cancel h, one_mul]

/-- The PSD model used by the spatial update: `ZTV` when partitioned, `T@V`
otherwise, floored at `eps` (`R[R < eps] = eps` before `U = XX / R`). -/
def gaussR {N F T K : ℕ} (cfg : GCfg) (st : GState N F T K) :
    Fin N → Fin F → Fin T → ℚ :=
  fun s f t => flr cfg.eps
    (if cfg.partitioning then ztvProd st.latent st.baseP st.actP s f t
     else tvProd st.base st.act s f t)

/-- Weighted sample covariance
`U[s,f] = mean_t( x[f,t]·x[f,t]ᴴ / R[s,f,t] )` (lines 283-289). -/
def gaussU {N F T K : ℕ} (cfg : GCfg) (st : GState N F T K) :
    Fin N → Fin F → Matrix (Fin N) (Fin N) CQ :=
  fun s f => fun i j =>
    CQ.divR (∑ t, CQ.divR (st.X i f t * CQ.conj (st.X j f t)) (gaussR cfg st s f t)) (T : ℚ)

/-- One pass of the source loop (lines 293-306) for source `s`, acting on the
current filter `W` (which already contains the rows written for earlier
sources).  `np.linalg.cond` and `np.linalg.solve` run on every bin before the
`np.where` guard selects; `np.linalg.solve` raises when some bin's
`WU = W[f] @ U[s,f]` is singular. -/
def ipSolve {N F : ℕ} (U W : Fin F → Matrix (Fin N) (Fin N) CQ) (s : Fin N) :
    Fin F → Fin N → CQ :=
  fun f => solveM (W f * U f) (unitVec s)

/-- `wUw = w.conj @ U_n @ w`, the (complex-typed) quadratic form, and its
square root `denominator = np.sqrt(wUw)` — this denominator is **not**
floored (the code's own comment explains that flooring it could make the cost
function diverge). -/
def ipDenom {N F : ℕ} (pr : NumPrim) (U W : Fin F → Matrix (Fin N) (Fin N) CQ)
    (s : Fin N) : Fin F → CQ :=
  fun f => pr.csq (∑ i, ∑ j, CQ.conj (ipSolve U W s f i) * (U f i j * ipSolve U W s f j))

/-- The filter produced by one source pass when the batched solve succeeds:
`np.where(cond(WU) < threshold, w.conj / denominator, previous row)` written
into row `s`; all other rows are untouched. -/
def spaceNewW {N F : ℕ} (pr : NumPrim) (cfg : GCfg)
    (U W : Fin F → Matrix (Fin N) (Fin N) CQ) (s : Fin N) :
    Fin F → Matrix (Fin N) (Fin N) CQ :=
  fun f => fun r c =>
    if r = s then
      if pr.condQ N (W f * U f) < cfg.threshold then
        CQ.div (CQ.conj (ipSolve U W s f c)) (ipDenom pr U W s f)
      else W f s c
    else W f r c

def spaceStep {N F : ℕ} (pr : NumPrim) (cfg : GCfg)
    (U : Fin F → Matrix (Fin N) (Fin N) CQ) (s : Fin N)
    (W : Fin F → Matrix (Fin N) (Fin N) CQ) :
    Except String (Fin F → Matrix (Fin N) (Fin N) CQ) :=
  if _h : ∀ f, (W f * U f).det ≠ 0 then Except.ok (spaceNewW pr cfg U W s)
  else Except.error "LinAlgError: Singular matrix"

/-- Sequential fold of `spaceStep` over the sources in index order. -/
def spaceLoop {N F : ℕ} (pr : NumPrim) (cfg : GCfg)
    (U : Fin N → Fin F → Matrix (Fin N) (Fin N) CQ) :
    List (Fin N) → (Fin F → Matrix (Fin N) (Fin N) CQ) →
    Except String (Fin F → Matrix (Fin N) (Fin N) CQ)
  | [], W => Except.ok W
  | s :: rest, W => (spaceStep pr cfg (U s) s W).bind (spaceLoop pr cfg U rest)

/-- `GaussILRMA.update_space_model`: covariances from the current source
model, then the strict per-source sequence of IP row updates. -/
def gaussUpdateSpaceModel {N F T K : ℕ} (pr : NumPrim) (cfg : GCfg)
    (st : GState N F T K) : Except String (GState N F T K) :=
  (spaceLoop pr cfg (gaussU cfg st) (List.finRange N) st.W).map
    (fun W1 => ⟨st.X, W1, st.base, st.act, st.baseP, st.actP, st.latent, st.losses⟩)

/-!
Loss evaluator (`GaussILRMA.compute_negative_loglikelihood`, lines 310-330).
`np.abs` of a complex determinant is `sqrt` of its squared magnitude, so it is
modelled as `pr.sq (normSq det)`.
-/

/-- Gaussian negative log-likelihood
`Σ (P/R + log R) − 2·T·Σ_f log |det W[f]|` with `R` floored at `eps`. -/
def gaussLoss {N F T K : ℕ} (pr : NumPrim) (cfg : GCfg) (st : GState N F T K) : ℚ :=
  let Y := separate st.X st.W
  let P := powSpec Y
  let R := gaussR cfg st
  (∑ s, ∑ f, ∑ t, (P s f t / R s f t + pr.logQ (R s f t))) -
    2 * (T : ℚ) * ∑ f, pr.logQ (pr.sq (CQ.normSq (st.W f).det))

/-- The denominators of the divisions performed by the loss evaluator: the
floored `R` entries of `P / R`. -/
def gaussLossDivisors {N F T K : ℕ} (cfg : GCfg) (st : GState N F T K) : List ℚ :=
  (List.finRange N).flatMap fun s => (List.finRange F).flatMap fun f =>
    (List.finRange T).map fun t => gaussR cfg st s f t

/-!
`GaussILRMA.update_once` (lines 150-195): source update, spatial update,
re-separate, then normalization.  The `projection-back` branch with
partitioning raises `NotImplementedError`; the `projection-back` branch
without partitioning refits `W` through `inv(X @ Xᴴ)`, which raises
`LinAlgError` when some bin's `X @ Xᴴ` is singular.
-/

/-- Mean power of a source over bins and frames: `(np.abs(Y)**2).mean(axis=(1,2))`. -/
def meanPow {N F T : ℕ} (Y : Fin N → Fin F → Fin T → CQ) (s : Fin N) : ℚ :=
  (∑ f, ∑ t, powSpec Y s f t) / ((F : ℚ) * (T : ℚ))

/-- The per-source scale of power normalization:
`aux = np.sqrt(P.mean(axis=(1,2)))` followed by `aux[aux < eps] = eps`. -/
def powerAux {N F T : ℕ} (pr : NumPrim) (eps : ℚ) (Y : Fin N → Fin F → Fin T → CQ)
    (s : Fin N) : ℚ :=
  flr eps (pr.sq (meanPow Y s))

/-- The estimate after the power normalization step: `Y = Y / aux`. -/
def powerNormEst {N F T : ℕ} (pr : NumPrim) (eps : ℚ)
    (Y : Fin N → Fin F → Fin T → CQ) : Fin N → Fin F → Fin T → CQ :=
  fun s f t => CQ.divR (Y s f t) (powerAux pr eps Y s)

/-- `Zauxsum`: column sums of the scale-corrected latent `Z / aux²` in the
power-normalization step of `update_once`. -/
def latentAuxSum {N K : ℕ} (Z : Fin N → Fin K → ℚ) (aux : Fin N → ℚ) :
    Fin K → ℚ :=
  fun k => ∑ s, Z s k / (aux s * aux s)

/-- The latent after the power-normalization step:
`Z = (Z / aux²) / Zauxsum` (the column sum is not floored). -/
def latentNorm {N K : ℕ} (Z : Fin N → Fin K → ℚ) (aux : Fin N → ℚ) :
    Fin N → Fin K → ℚ :=
  fun s k => (Z s k / (aux s * aux s)) / latentAuxSum Z aux k

/-- `GaussILRMA.update_once`.  Returns the updated state or the text of the
exception that aborts the iteration. -/
def gaussUpdateOnce {N F T K : ℕ} (pr : NumPrim) (cfg : GCfg)
    (st : GState N F T K) : Except String (GState N F T K) :=
  let st1 := gaussUpdateSourceModel pr cfg st
  match gaussUpdateSpaceModel pr cfg st1 with
  | Except.error e => Except.error e
  | Except.ok st2 =>
    let Y := separate st2.X st2.W
    match cfg.normalize with
    | NormMode.off => Except.ok st2
    | NormMode.power =>
      let aux := powerAux pr cfg.eps Y
      let W1 := fun f => fun s c => CQ.divR (st2.W f s c) (aux s)
      if cfg.partitioning then
        let T1 := fun f k => st2.baseP f k * latentAuxSum st2.latent aux k
        let Z1 := latentNorm st2.latent aux
        Except.ok ⟨st2.X, W1, st2.base, st2.act, T1, st2.actP, Z1, st2.losses⟩
      else
        let T1 := fun s f k => st2.base s f k / (aux s * aux s)
        Except.ok ⟨st2.X, W1, T1, st2.act, st2.baseP, st2.actP, st2.latent, st2.losses⟩
    | NormMode.projBack =>
      if cfg.partitioning then
        Except.error "NotImplementedError: projection-back based normalization is not supported with partitioning; choose power based normalization"
      else
        let ref := fun f t => if h : cfg.referenceId < N then st2.X ⟨cfg.referenceId, h⟩ f t else 0
        let scale := pr.projBack N F T Y ref
        let Y1 := fun s f t => Y s f t * scale s f
        let Xb := fun f : Fin F => fun (c : Fin N) (t : Fin T) => st2.X c f t
        let XXH := fun f => fun (c : Fin N) (c2 : Fin N) => ∑ t, Xb f c t * CQ.conj (Xb f c2 t)
        if ∀ f, (Matrix.of (XXH f)).det ≠ 0 then
          let W1 := fun f => fun (s : Fin N) (c : Fin N) =>
            ∑ c2, (∑ t, Y1 s f t * CQ.conj (Xb f c2 t)) *
              CQ.div ((Matrix.of (XXH f)).adjugate c2 c) (Matrix.of (XXH f)).det
          Except.ok ⟨st2.X, W1, st2.base, st2.act, st2.baseP, st2.actP, st2.latent, st2.losses⟩
        else
          Except.error "LinAlgError: Singular matrix"

/-!
Driver (`GaussILRMA.__call__`, lines 117-148, and `ILRMAbase.__init__` /
`ILRMAbase._reset`).  `__init__` sets `self.loss = []`; `_reset` rebuilds the
demixing filter (per-bin identity), the estimate, and draws fresh random
factors — it does **not** touch `self.loss`.  The random draws of
`np.random.rand` are passed in as explicit arguments (`base0`/`act0` or
`baseP0`/`actP0`; the partitioned latent is initialized deterministically to
`1/n_sources`).  A raised exception aborts the loop, leaving the entries
appended so far in `losses`.
-/

/-- Fresh driver state as left by `ILRMAbase.__init__`: no data yet and an
empty loss list.  (Arrays are placeholders until `_reset`; `losses = []` is
the faithful part.) -/
def gaussFreshLosses : List ℚ := []

/-- `ILRMAbase._reset` on input `X`: identity filter, the supplied random
nonnegative factors, uniform latent, and the `losses` list carried over
unchanged from the previous state of the object. -/
def gaussReset {N F T K : ℕ} (prevLosses : List ℚ) (X : Fin N → Fin F → Fin T → CQ)
    (base0 : Fin N → Fin F → Fin K → ℚ) (act0 : Fin N → Fin K → Fin T → ℚ)
    (baseP0 : Fin F → Fin K → ℚ) (actP0 : Fin K → Fin T → ℚ) : GState N F T K :=
  ⟨X, identFilter N F, base0, act0, baseP0, actP0,
    fun _ _ => 1 / (N : ℚ), prevLosses⟩

/-- `self.loss.append(self.compute_negative_loglikelihood())`: append the
loss of the current state to its loss list. -/
def appendLoss {N F T K : ℕ} (pr : NumPrim) (cfg : GCfg) (st : GState N F T K) :
    GState N F T K :=
  ⟨st.X, st.W, st.base, st.act, st.baseP, st.actP, st.latent,
    st.losses ++ [gaussLoss pr cfg st]⟩

/-- The iteration loop of `__call__`: each pass runs `update_once`, then
appends the current negative log-likelihood.  An exception stops the loop
and is reported together with the state reached so far. -/
def gaussLoop {N F T K : ℕ} (pr : NumPrim) (cfg : GCfg) :
    ℕ → GState N F T K → GState N F T K × Option String
  | 0, st => (st, none)
  | Nat.succ k, st =>
    match gaussUpdateOnce pr cfg st with
    | Except.error e => (st, some e)
    | Except.ok st1 => gaussLoop pr cfg k (appendLoss pr cfg st1)

/-- `GaussILRMA.__call__`: reset, baseline loss, then `iteration` passes of
the loop.  (The final projection-back rescaling of the returned estimate
does not touch `losses` and is omitted here; the claims below are about the
loss trajectory.) -/
def gaussRun {N F T K : ℕ} (pr : NumPrim) (cfg : GCfg) (prevLosses : List ℚ)
    (X : Fin N → Fin F → Fin T → CQ) (base0 : Fin N → Fin F → Fin K → ℚ)
    (act0 : Fin N → Fin K → Fin T → ℚ) (baseP0 : Fin F → Fin K → ℚ)
    (actP0 : Fin K → Fin T → ℚ) (iteration : ℕ) : GState N F T K × Option String :=
  gaussLoop pr cfg iteration
    (appendLoss pr cfg (gaussReset prevLosses X base0 act0 baseP0 actP0))

/-!
Concrete instantiations used by witnesses and counterexamples.  `prim0`
instantiates the numeric primitives with simple computable functions; each
witness discharges, at its concrete input, exactly the properties of the
primitives that the theorem hypothesises.
-/

/-- A concrete primitive bundle for witnesses: `sq` and `csq` are the
identity (which agrees with the true square root at the fixed points 0 and 1
used by the witnesses), `logQ` is constantly 0 (true at 1), `condQ` is
constantly 0 (below any positive threshold). -/
def prim0 : NumPrim :=
  ⟨fun q => q, fun z => z, fun _ => 0, fun _ _ => 0, fun _ _ _ _ _ => fun _ _ => 1⟩

/-- Like `prim0` but with a condition-number primitive that is constantly
above `THRESHOLD = 1e12`, matching `np.linalg.cond` on singular matrices
(where it is infinite). -/
def primBigCond : NumPrim :=
  ⟨fun q => q, fun z => z, fun _ => 0, fun _ _ => thresholdDefault + 1,
    fun _ _ _ _ _ => fun _ _ => 1⟩

/-- Default Gaussian configuration: unconstrained model, power normalization,
`EPS` and `THRESHOLD` as in the source. -/
def cfg0 : GCfg := ⟨2, false, NormMode.power, 0, epsDefault, thresholdDefault⟩

/-- Configuration with the partitioned model and projection-back
normalization selected — the unsupported combination. -/
def cfgPB : GCfg := ⟨2, true, NormMode.projBack, 0, epsDefault, thresholdDefault⟩

/-- A tiny all-ones state: one source, one bin, one frame, one basis; mixture
entry 1, identity filter, all factors 1. -/
def stOne : GState 1 1 1 1 :=
  ⟨fun _ _ _ => 1, fun _ => 1, fun _ _ _ => 1, fun _ _ _ => 1,
    fun _ _ => 1, fun _ _ => 1, fun _ _ => 1, []⟩

/-- A zero-mixture state: one source, one bin, one frame, one basis; the
mixture is identically zero, all model factors 1. -/
def stZero : GState 1 1 1 1 :=
  ⟨fun _ _ _ => 0, fun _ => 1, fun _ _ _ => 1, fun _ _ _ => 1,
    fun _ _ => 1, fun _ _ => 1, fun _ _ => 1, []⟩

/-- Claim C2, counterexample: constructing the driver with the partitioned
source model and projection-back normalization does **not** fail at
construction time — `GaussILRMA.__init__` performs no validation and returns
normally. -/
theorem gaussInit_partitioning_projBack_no_error :
    ¬ ∃ e, gaussInit 10 true NormMode.projBack 0 epsDefault thresholdDefault
      = Except.error e := by
  intro ⟨e, he⟩
  simp [gaussInit] at he

/-- Claim C2, amended: the unsupported combination (partitioning together
with projection-back normalization) is rejected with the unsupported-
combination `NotImplementedError` only when `update_once` runs — not at
construction: on every call of `update_once` whose source-model and spatial
updates complete, exactly that `NotImplementedError` is raised, after both
updates have already run.  (If the spatial update itself raises, e.g. a
singular per-bin solve, that exception propagates instead and the
normalization block is never reached.) -/
theorem gaussUpdateOnce_partitioning_projBack_raises {N F T K : ℕ}
    (pr : NumPrim) (cfg : GCfg) (st st2 : GState N F T K)
    (hpart : cfg.partitioning = true) (hnorm : cfg.normalize = NormMode.projBack)
    (hsp : gaussUpdateSpaceModel pr cfg (gaussUpdateSourceModel pr cfg st)
      = Except.ok st2) :
    gaussUpdateOnce pr cfg st = Except.error
      "NotImplementedError: projection-back based normalization is not supported with partitioning; choose power based normalization" := by
  unfold gaussUpdateOnce
  simp [hsp, hnorm, hpart]

theorem powSpec_stOne : ∀ s f t : Fin 1, powSpec (separate stOne.X stOne.W) s f t = 1 := by
  intro s f t
  simp [powSpec, separate, stOne, CQ.normSq, Fin.sum_univ_one, Matrix.one_apply,
    Fin.eq_zero s]

theorem ztv_stOne : ∀ (s : Fin 1) (f : Fin 1) (t : Fin 1),
    ztvProd stOne.latent stOne.baseP stOne.actP s f t = 1 := by
  intro s f t
  simp [ztvProd, stOne, Fin.sum_univ_one]

theorem latentRaw_stOne_PB : ∀ s k : Fin 1,
    latentRaw prim0 cfgPB.eps (powSpec (separate stOne.X stOne.W))
      stOne.latent stOne.baseP stOne.actP s k = 1 := by
  intro s k
  have h1 : flr epsDefault 1 = 1 := flr_of_ge (by norm_num [epsDefault])
  simp only [latentRaw, latentNum, latentDen, ztv_stOne, powSpec_stOne,
    show cfgPB.eps = epsDefault from rfl, h1]
  simp [stOne, prim0, Fin.sum_univ_one, h1]

theorem latentNew_stOne_PB :
    latentNew prim0 cfgPB.eps (powSpec (separate stOne.X stOne.W))
      stOne.latent stOne.baseP stOne.actP = stOne.latent := by
  funext s k
  simp only [latentNew, latentRaw_stOne_PB, Fin.sum_univ_one]
  simp [stOne]

theorem basePNew_stOne_PB :
    basePNew prim0 cfgPB.eps (powSpec (separate stOne.X stOne.W))
      stOne.latent stOne.baseP stOne.actP = stOne.baseP := by
  funext f k
  have h1 : flr epsDefault 1 = 1 := flr_of_ge (by norm_num [epsDefault])
  simp only [basePNew, ztv_stOne, powSpec_stOne,
    show cfgPB.eps = epsDefault from rfl, h1]
  simp [stOne, prim0, Fin.sum_univ_one, h1]

theorem actPNew_stOne_PB :
    actPNew prim0 cfgPB.eps (powSpec (separate stOne.X stOne.W))
      stOne.latent stOne.baseP stOne.actP = stOne.actP := by
  funext k t
  have h1 : flr epsDefault 1 = 1 := flr_of_ge (by norm_num [epsDefault])
  simp only [actPNew, ztv_stOne, powSpec_stOne,
    show cfgPB.eps = epsDefault from rfl, h1]
  simp [stOne, prim0, Fin.sum_univ_one, h1]

theorem gaussSrc_stOne_PB : gaussUpdateSourceModel prim0 cfgPB stOne = stOne := by
  simp only [gaussUpdateSourceModel, show cfgPB.partitioning = true from rfl,
    eq_self_iff_true, if_true]
  rw [latentNew_stOne_PB, basePNew_stOne_PB, actPNew_stOne_PB]

theorem gaussU_stOne_PB : ∀ (f : Fin 1) (i : Fin 1) (j : Fin 1),
    gaussU cfgPB stOne 0 f i j = 1 := by
  intro f i j
  have h1 : flr epsDefault 1 = 1 := flr_of_ge (by norm_num [epsDefault])
  have hR : gaussR cfgPB stOne 0 f 0 = 1 := by
    simp only [gaussR, show cfgPB.partitioning = true from rfl, eq_self_iff_true,
      if_true, ztv_stOne, show cfgPB.eps = epsDefault from rfl]
    exact h1
  simp only [gaussU, Fin.sum_univ_one]
  rw [hR]
  simp [stOne]

theorem det_stOne_PB : ∀ f : Fin 1, (stOne.W f * gaussU cfgPB stOne 0 f).det ≠ 0 := by
  intro f
  have hW : stOne.W f * gaussU cfgPB stOne 0 f = gaussU cfgPB stOne 0 f := by
    show (1 : Matrix (Fin 1) (Fin 1) CQ) * _ = _
    exact Matrix.one_mul _
  rw [hW, Matrix.det_fin_one, gaussU_stOne_PB]
  intro hcontra
  exact one_ne_zero (congrArg CQ.re hcontra)

theorem spaceModel_stOne_PB :
    gaussUpdateSpaceModel prim0 cfgPB (gaussUpdateSourceModel prim0 cfgPB stOne)
      = Except.ok ⟨stOne.X, spaceNewW prim0 cfgPB (gaussU cfgPB stOne 0) stOne.W 0,
          stOne.base, stOne.act, stOne.baseP, stOne.actP, stOne.latent,
          stOne.losses⟩ := by
  rw [gaussSrc_stOne_PB]
  unfold gaussUpdateSpaceModel
  rw [show (List.finRange 1) = [(0 : Fin 1)] from rfl]
  unfold spaceLoop
  unfold spaceStep
  rw [dif_pos det_stOne_PB]
  rfl

/-- Claim C2, witness: a concrete partitioned projection-back state whose
source-model and spatial updates both complete, so `update_once` raises
exactly the unsupported-combination `NotImplementedError` after them. -/
theorem gaussUpdateOnce_partitioning_projBack_raises_witness :
    gaussUpdateOnce prim0 cfgPB stOne = Except.error
      "NotImplementedError: projection-back based normalization is not supported with partitioning; choose power based normalization" :=
  gaussUpdateOnce_partitioning_projBack_raises prim0 cfgPB stOne
    ⟨stOne.X, spaceNewW prim0 cfgPB (gaussU cfgPB stOne 0) stOne.W 0, stOne.base,
      stOne.act, stOne.baseP, stOne.actP, stOne.latent, stOne.losses⟩
    rfl rfl spaceModel_stOne_PB

/-- Claim C4, counterexample: the heavy-tailed (t-distribution) variant does
**not** fail at construction — `tILRMA.__init__` stores its configuration and
returns normally (its not-implemented source-model update is skipped by
`tILRMA.update_once`, which has the call commented out). -/
theorem tInit_no_error :
    ¬ ∃ e, tInit 10 1 false NormMode.power 0 epsDefault = Except.error e := by
  intro ⟨e, he⟩
  simp [tInit] at he

/-- Claim C4, amended: the KL-divergence and sparsity-regularized variants
fail fast at construction with a clear `NotImplementedError`; the
heavy-tailed variant constructs successfully, and only its source-model
update — which `tILRMA.update_once` never invokes — raises
`NotImplementedError` when called. -/
theorem unimplemented_variants_fail (nB : ℕ) (p : Bool) (nm : NormMode)
    (rid : ℕ) (e nu : ℚ) (N F T K : ℕ) (st : GState N F T K) :
    klInit nB p nm rid e = Except.error "NotImplementedError: Implement KL-ILRMA" ∧
    regInit nB p nm rid e = Except.error "NotImplementedError: Implement Regularized ILRMA" ∧
    tInit nB nu p nm rid e = Except.ok ⟨nB, nu, p, nm, rid, e⟩ ∧
    tUpdateSourceModel N F T K st
      = Except.error "NotImplementedError: Implement update_source_model." :=
  ⟨rfl, rfl, rfl, rfl⟩

/-- A state whose low-rank factors are identically zero while the mixture is
all-ones: the floored PSD model `TV` equals `eps` exactly, so the update
divides by `TV**2 = eps**2 < eps`. -/
def stZeroTV : GState 1 1 1 1 :=
  ⟨fun _ _ _ => 1, fun _ => 1, fun _ _ _ => 0, fun _ _ _ => 0,
    fun _ _ => 1, fun _ _ => 1, fun _ _ => 1, []⟩

theorem flr_sq_ge {eps : ℚ} (heps : 0 ≤ eps) (y : ℚ) :
    eps * eps ≤ flr eps y * flr eps y :=
  mul_le_mul (flr_ge eps y) (flr_ge eps y) heps (le_trans heps (flr_ge eps y))

theorem flr_lin_ge {eps : ℚ} (heps : 0 ≤ eps) (hle : eps ≤ 1) (y : ℚ) :
    eps * eps ≤ flr eps y := by
  have h1 : eps * eps ≤ 1 * eps := mul_le_mul_of_nonneg_right hle heps
  have h2 : (1 : ℚ) * eps = eps := one_mul eps
  exact le_trans (h1.trans_eq h2) (flr_ge eps y)

/-- Claim C3, counterexample: the unconstrained Gaussian source-model update
performs a division whose denominator is below `eps` on a concrete input.
With zero factors and an all-ones mixture, `TV` is floored to `eps = 1e-12`
and the update then divides `P` by `TV**2 = 1e-24 < eps`: the denominator is
the square of a floored quantity, not itself floored. -/
theorem gaussSrc_divisor_below_eps :
    ∃ d ∈ @gaussSrcDivisors 1 1 1 1 epsDefault
      (powSpec (separate stZeroTV.X stZeroTV.W)) stZeroTV.base stZeroTV.act prim0,
      d < epsDefault := by
  refine ⟨flr epsDefault 0 * flr epsDefault 0, ?_, ?_⟩
  · simp only [gaussSrcDivisors, List.mem_append, List.mem_flatMap, List.mem_map,
      List.mem_finRange, true_and]
    left; left; left; left; left
    refine ⟨0, 0, 0, ?_⟩
    simp [tvProd, stZeroTV]
  · norm_num [flr, epsDefault]

set_option maxHeartbeats 1000000 in
/-- Claim C3, amended: in the unconstrained Gaussian source-model update
every denominator is a quantity floored at `eps` or the square of such a
quantity, hence at least `eps²` (for `0 < eps ≤ 1`) but not necessarily at
least `eps`; in the loss evaluator every denominator is the floored PSD `R`,
hence at least `eps`.  (The latent-renormalization column sums and the
spatial normalization denominator `sqrt(wᴴUw)` are not floored at all.) -/
theorem gaussDivisors_bounded {N F T K : ℕ} (pr : NumPrim) (cfg : GCfg)
    (st : GState N F T K) (P : Fin N → Fin F → Fin T → ℚ)
    (base : Fin N → Fin F → Fin K → ℚ) (act : Fin N → Fin K → Fin T → ℚ)
    (h1 : 0 < cfg.eps) (h2 : cfg.eps ≤ 1) :
    (∀ d ∈ gaussSrcDivisors cfg.eps P base act pr, cfg.eps * cfg.eps ≤ d) ∧
    (∀ d ∈ gaussLossDivisors cfg st, cfg.eps ≤ d) := by
  have heps : (0 : ℚ) ≤ cfg.eps := le_of_lt h1
  constructor
  · intro d hd
    simp only [gaussSrcDivisors, List.mem_append, List.mem_flatMap, List.mem_map,
      List.mem_finRange, true_and] at hd
    rcases hd with ((((h | h) | h) | h) | h) | h
    · obtain ⟨a, b, c, hEq⟩ := h; exact hEq ▸ flr_sq_ge heps _
    · obtain ⟨a, b, c, hEq⟩ := h; exact hEq ▸ flr_lin_ge heps h2 _
    · obtain ⟨a, b, c, hEq⟩ := h; exact hEq ▸ flr_lin_ge heps h2 _
    · obtain ⟨a, b, c, hEq⟩ := h; exact hEq ▸ flr_sq_ge heps _
    · obtain ⟨a, b, c, hEq⟩ := h; exact hEq ▸ flr_lin_ge heps h2 _
    · obtain ⟨a, b, c, hEq⟩ := h; exact hEq ▸ flr_lin_ge heps h2 _
  · intro d hd
    simp only [gaussLossDivisors, List.mem_flatMap, List.mem_map,
      List.mem_finRange, true_and] at hd
    obtain ⟨a, b, c, hEq⟩ := hd
    exact hEq ▸ flr_ge _ _

/-- Claim C3, witness: the amended bound, instantiated on a concrete state
with the default `EPS`. -/
theorem gaussDivisors_bounded_witness :
    (∀ d ∈ gaussSrcDivisors cfg0.eps (powSpec (separate stOne.X stOne.W))
      stOne.base stOne.act prim0, cfg0.eps * cfg0.eps ≤ d) ∧
    (∀ d ∈ gaussLossDivisors cfg0 stOne, cfg0.eps ≤ d) :=
  gaussDivisors_bounded prim0 cfg0 stOne _ _ _
    (by norm_num [cfg0, epsDefault]) (by norm_num [cfg0, epsDefault])

/-- A two-channel state whose per-bin mixture vector is `(1, 1)`: the
weighted covariance `U` is the all-ones 2×2 matrix, so `WU = W @ U` is
exactly singular at the very first source pass. -/
def st2ch : GState 2 1 1 1 :=
  ⟨fun _ _ _ => 1, fun _ => 1, fun _ _ _ => 1, fun _ _ _ => 1,
    fun _ _ => 1, fun _ _ => 1, fun _ _ => 1, []⟩

theorem gaussU_st2ch : ∀ f i j, gaussU cfg0 st2ch 0 f i j = 1 := by
  intro f i j
  have htv : tvProd st2ch.base st2ch.act 0 f 0 = 1 := by
    simp [tvProd, st2ch, Fin.sum_univ_one]
  have hR : gaussR cfg0 st2ch 0 f 0 = 1 := by
    simp only [gaussR, cfg0, Bool.false_eq_true, if_false, htv]
    exact flr_of_ge (by norm_num [epsDefault])
  simp only [gaussU, Fin.sum_univ_one]
  rw [hR]
  simp [st2ch]

/-- Claim C5, counterexample: at a bin whose condition number exceeds the
threshold, the update does **not** always retain the previous row without
error — `np.linalg.solve` runs on every bin before the `np.where` guard, and
on an exactly singular `WU` (condition number infinite, here modelled by a
`condQ` primitive that exceeds `THRESHOLD`, as `np.linalg.cond` does on
singular matrices) it raises `LinAlgError`, aborting the whole spatial
update. -/
theorem spaceStep_singular_raises :
    spaceStep primBigCond cfg0 (gaussU cfg0 st2ch 0) 0 st2ch.W
      = Except.error "LinAlgError: Singular matrix" ∧
    cfg0.threshold <
      primBigCond.condQ 2 (st2ch.W 0 * gaussU cfg0 st2ch 0 0) := by
  constructor
  · have hW : st2ch.W 0 * gaussU cfg0 st2ch 0 0 = gaussU cfg0 st2ch 0 0 := by
      show (1 : Matrix (Fin 2) (Fin 2) CQ) * _ = _
      exact Matrix.one_mul _
    have hdet : (st2ch.W 0 * gaussU cfg0 st2ch 0 0).det = 0 := by
      rw [hW, Matrix.det_fin_two, gaussU_st2ch, gaussU_st2ch, gaussU_st2ch, gaussU_st2ch]
      ring
    have hnot : ¬ ∀ f : Fin 1, (st2ch.W f * gaussU cfg0 st2ch 0 f).det ≠ 0 := by
      intro hall
      exact hall 0 hdet
    unfold spaceStep
    rw [dif_neg hnot]
  · norm_num [primBigCond, cfg0, thresholdDefault]

/-- Claim C5, amended: when every bin's `WU` is nonsingular, the spatial
source pass succeeds with no error and behaves as claimed: at bins whose
condition number is below the threshold the new row `s` is
`conj(w) / sqrt(wᴴ·U·w)` where `w` solves `WU·w = e_s`; at bins whose
condition number reaches the threshold, row `s` keeps its previous value;
rows other than `s` are untouched.  When some bin's `WU` is exactly
singular, the batched solve raises `LinAlgError` instead. -/
theorem spaceStep_guard_spec {N F : ℕ} (pr : NumPrim) (cfg : GCfg)
    (U W : Fin F → Matrix (Fin N) (Fin N) CQ) (s : Fin N)
    (h : ∀ f, (W f * U f).det ≠ 0) :
    spaceStep pr cfg U s W = Except.ok (spaceNewW pr cfg U W s) ∧
    ∀ f,
      (W f * U f).mulVec (ipSolve U W s f) = unitVec s ∧
      (pr.condQ N (W f * U f) < cfg.threshold →
        ∀ c, spaceNewW pr cfg U W s f s c
          = CQ.div (CQ.conj (ipSolve U W s f c)) (ipDenom pr U W s f)) ∧
      (¬ pr.condQ N (W f * U f) < cfg.threshold →
        ∀ c, spaceNewW pr cfg U W s f s c = W f s c) ∧
      (∀ r, r ≠ s → ∀ c, spaceNewW pr cfg U W s f r c = W f r c) := by
  refine ⟨by unfold spaceStep; rw [dif_pos h], fun f => ⟨solveM_mulVec (h f) _, ?_, ?_, ?_⟩⟩
  · intro hc c
    simp [spaceNewW, hc]
  · intro hc c
    simp [spaceNewW, hc]
  · intro r hr c
    simp [spaceNewW, hr]

theorem gaussU_stOne : ∀ f i j, gaussU cfg0 stOne 0 f i j = 1 := by
  intro f i j
  have htv : tvProd stOne.base stOne.act 0 f 0 = 1 := by
    simp [tvProd, stOne, Fin.sum_univ_one]
  have hR : gaussR cfg0 stOne 0 f 0 = 1 := by
    simp only [gaussR, cfg0, Bool.false_eq_true, if_false, htv]
    exact flr_of_ge (by norm_num [epsDefault])
  simp only [gaussU, Fin.sum_univ_one]
  rw [hR]
  simp [stOne]

/-- Claim C5, witness: the amended per-pass specification instantiated on a
concrete nonsingular one-source state. -/
theorem spaceStep_guard_spec_witness :
    spaceStep prim0 cfg0 (gaussU cfg0 stOne 0) 0 stOne.W
      = Except.ok (spaceNewW prim0 cfg0 (gaussU cfg0 stOne 0) stOne.W 0) ∧
    ∀ f,
      (stOne.W f * gaussU cfg0 stOne 0 f).mulVec
        (ipSolve (gaussU cfg0 stOne 0) stOne.W 0 f) = unitVec 0 ∧
      (prim0.condQ 1 (stOne.W f * gaussU cfg0 stOne 0 f) < cfg0.threshold →
        ∀ c, spaceNewW prim0 cfg0 (gaussU cfg0 stOne 0) stOne.W 0 f 0 c
          = CQ.div (CQ.conj (ipSolve (gaussU cfg0 stOne 0) stOne.W 0 f c))
            (ipDenom prim0 (gaussU cfg0 stOne 0) stOne.W 0 f)) ∧
      (¬ prim0.condQ 1 (stOne.W f * gaussU cfg0 stOne 0 f) < cfg0.threshold →
        ∀ c, spaceNewW prim0 cfg0 (gaussU cfg0 stOne 0) stOne.W 0 f 0 c
          = stOne.W f 0 c) ∧
      (∀ r, r ≠ 0 → ∀ c, spaceNewW prim0 cfg0 (gaussU cfg0 stOne 0) stOne.W 0 f r c
        = stOne.W f r c) := by
  refine spaceStep_guard_spec prim0 cfg0 (gaussU cfg0 stOne 0) stOne.W 0 ?_
  intro f
  have hW : stOne.W f * gaussU cfg0 stOne 0 f = gaussU cfg0 stOne 0 f := by
    show (1 : Matrix (Fin 1) (Fin 1) CQ) * _ = _
    exact Matrix.one_mul _
  rw [hW, Matrix.det_fin_one, gaussU_stOne]
  intro hcontra
  exact one_ne_zero (congrArg CQ.re hcontra)

/-- Claim C6, counterexample: with a zero mixture (a legitimate input), the
latent update produces columns summing to 0, not 1: the numerators vanish,
`Z = sqrt(0/den) = 0`, and the renormalization divides by the unfloored
column sum 0 (numpy: `0/0 = NaN`; exact arithmetic: 0).  The claimed
invariant `|column sum − 1| ≤ 1e-9` fails. -/
theorem latentNew_colsum_zero_mixture :
    (∑ s2 : Fin 1, latentNew prim0 epsDefault (powSpec (separate stZero.X stZero.W))
      stZero.latent stZero.baseP stZero.actP s2 0) = 0 ∧
    ¬ |(∑ s2 : Fin 1, latentNew prim0 epsDefault (powSpec (separate stZero.X stZero.W))
      stZero.latent stZero.baseP stZero.actP s2 0) - 1| ≤ 1 / 10 ^ 9 := by
  have hP : ∀ s f t, powSpec (separate stZero.X stZero.W) s f t = 0 := by
    intro s f t
    simp [powSpec, separate, stZero, CQ.normSq]
  have hnum : ∀ s k : Fin 1, latentNum epsDefault (powSpec (separate stZero.X stZero.W))
      stZero.latent stZero.baseP stZero.actP s k = 0 := by
    intro s k
    simp [latentNum, hP]
  have hraw : ∀ s k : Fin 1, latentRaw prim0 epsDefault (powSpec (separate stZero.X stZero.W))
      stZero.latent stZero.baseP stZero.actP s k = 0 := by
    intro s k
    simp [latentRaw, hnum, prim0]
  have hnew : ∀ s k : Fin 1, latentNew prim0 epsDefault (powSpec (separate stZero.X stZero.W))
      stZero.latent stZero.baseP stZero.actP s k = 0 := by
    intro s k
    simp [latentNew, hraw]
  constructor
  · simp [hnew]
  · simp [hnew]
    norm_num

/-- Claim C6, amended: under positivity side conditions that hold on generic
(random, nonzero) data — nonnegative inputs, a square-root primitive that
preserves nonnegativity, and nonvanishing latent column sums — the
partitioned update keeps every invariant the claim states, with the column
sums exactly 1 in exact arithmetic: after the latent update the columns of
`Z` sum to 1 and `Z`, the updated shared bases and the updated shared
activations are entrywise nonnegative; after the power-normalization latent
correction the columns again sum to 1 and stay nonnegative.  With a zero
mixture the column sums are 0 (NaN in numpy) instead. -/
theorem partitionInvariants {N F T K : ℕ} (pr : NumPrim) (eps : ℚ)
    (P : Fin N → Fin F → Fin T → ℚ) (Z : Fin N → Fin K → ℚ)
    (Tb : Fin F → Fin K → ℚ) (V : Fin K → Fin T → ℚ) (aux : Fin N → ℚ)
    (heps : 0 < eps)
    (hsq : ∀ x, 0 ≤ x → 0 ≤ pr.sq x)
    (hP : ∀ s f t, 0 ≤ P s f t)
    (hT : ∀ f k, 0 ≤ Tb f k)
    (hV : ∀ k t, 0 ≤ V k t)
    (hZ : ∀ s k, 0 ≤ Z s k)
    (hcol : ∀ k, (∑ s, latentRaw pr eps P Z Tb V s k) ≠ 0)
    (haux : ∀ k, latentAuxSum Z aux k ≠ 0) :
    (∀ k, ∑ s, latentNew pr eps P Z Tb V s k = 1) ∧
    (∀ s k, 0 ≤ latentNew pr eps P Z Tb V s k) ∧
    (∀ f k, 0 ≤ basePNew pr eps P (latentNew pr eps P Z Tb V) Tb V f k) ∧
    (∀ k t, 0 ≤ actPNew pr eps P (latentNew pr eps P Z Tb V)
      (basePNew pr eps P (latentNew pr eps P Z Tb V) Tb V) V k t) ∧
    (∀ k, ∑ s, latentNorm Z aux s k = 1) ∧
    (∀ s k, 0 ≤ latentNorm Z aux s k) := by
  have hflr : ∀ y : ℚ, 0 ≤ flr eps y := fun y => le_trans (le_of_lt heps) (flr_ge eps y)
  have hraw : ∀ s k, 0 ≤ latentRaw pr eps P Z Tb V s k := by
    intro s k
    refine hsq _ (div_nonneg ?_ ?_)
    · refine Finset.sum_nonneg fun f _ => Finset.sum_nonneg fun t _ => ?_
      exact mul_nonneg (div_nonneg (hP s f t) (mul_self_nonneg _))
        (mul_nonneg (hT f k) (hV k t))
    · exact hflr _
  have hnew : ∀ s k, 0 ≤ latentNew pr eps P Z Tb V s k := by
    intro s k
    exact div_nonneg (hraw s k) (Finset.sum_nonneg fun s2 _ => hraw s2 k)
  refine ⟨?_, hnew, ?_, ?_, ?_, ?_⟩
  · intro k
    have : (∑ s, latentRaw pr eps P Z Tb V s k / (∑ s2, latentRaw pr eps P Z Tb V s2 k))
        = (∑ s, latentRaw pr eps P Z Tb V s k) / (∑ s2, latentRaw pr eps P Z Tb V s2 k) :=
      (Finset.sum_div _ _ _).symm
    rw [show (∑ s, latentNew pr eps P Z Tb V s k)
        = ∑ s, latentRaw pr eps P Z Tb V s k / (∑ s2, latentRaw pr eps P Z Tb V s2 k) from rfl,
      this, div_self (hcol k)]
  · intro f k
    refine mul_nonneg (hT f k) (hsq _ (div_nonneg ?_ (hflr _)))
    refine Finset.sum_nonneg fun s _ => Finset.sum_nonneg fun t _ => ?_
    exact mul_nonneg (div_nonneg (hP s f t) (mul_self_nonneg _))
      (mul_nonneg (hnew s k) (hV k t))
  · intro k t
    refine mul_nonneg (hV k t) (hsq _ (div_nonneg ?_ (hflr _)))
    refine Finset.sum_nonneg fun s _ => Finset.sum_nonneg fun f _ => ?_
    refine mul_nonneg (div_nonneg (hP s f t) (mul_self_nonneg _)) (mul_nonneg (hnew s k) ?_)
    exact mul_nonneg (hT f k) (hsq _ (div_nonneg (Finset.sum_nonneg fun s2 _ =>
      Finset.sum_nonneg fun t2 _ => mul_nonneg (div_nonneg (hP s2 f t2) (mul_self_nonneg _))
        (mul_nonneg (hnew s2 k) (hV k t2))) (hflr _)))
  · intro k
    have : (∑ s, (Z s k / (aux s * aux s)) / latentAuxSum Z aux k)
        = (∑ s, Z s k / (aux s * aux s)) / latentAuxSum Z aux k :=
      (Finset.sum_div _ _ _).symm
    rw [show (∑ s, latentNorm Z aux s k)
        = ∑ s, (Z s k / (aux s * aux s)) / latentAuxSum Z aux k from rfl, this]
    exact div_self (haux k)
  · intro s k
    refine div_nonneg (div_nonneg (hZ s k) (mul_self_nonneg _))
      (Finset.sum_nonneg fun s2 _ => div_nonneg (hZ s2 k) (mul_self_nonneg _))

/-- All-ones arrays over singleton axes, used by concrete witnesses. -/
def one3 : Fin 1 → Fin 1 → Fin 1 → ℚ := fun _ _ _ => 1

/-- All-ones matrix over singleton axes. -/
def one2 : Fin 1 → Fin 1 → ℚ := fun _ _ => 1

/-- All-ones vector over a singleton axis. -/
def one1 : Fin 1 → ℚ := fun _ => 1

theorem latentRaw_ones : ∀ s k : Fin 1,
    latentRaw prim0 epsDefault one3 one2 one2 one2 s k = 1 := by
  intro s k
  have h1 : flr epsDefault 1 = 1 := flr_of_ge (by norm_num [epsDefault])
  simp [latentRaw, latentNum, latentDen, ztvProd, prim0, one3, one2, h1, Fin.sum_univ_one]

/-- Claim C6, witness: the amended invariants instantiated on concrete
all-ones partitioned data (nonzero mixture power, unit factors). -/
theorem partitionInvariants_witness :
    (∀ k, ∑ s, latentNew prim0 epsDefault one3 one2 one2 one2 s k = 1) ∧
    (∀ s k, 0 ≤ latentNew prim0 epsDefault one3 one2 one2 one2 s k) ∧
    (∀ k, ∑ s, latentNorm one2 one1 s k = 1) := by
  have H := partitionInvariants prim0 epsDefault one3 one2 one2 one2 one1
    (by norm_num [epsDefault])
    (fun x h => h)
    (fun s f t => by norm_num [one3])
    (fun f k => by norm_num [one2])
    (fun k t => by norm_num [one2])
    (fun s k => by norm_num [one2])
    (fun k => by rw [Fin.sum_univ_one, latentRaw_ones]; norm_num)
    (fun k => by simp [latentAuxSum, one2, one1, Fin.sum_univ_one])
  exact ⟨H.1, H.2.1, H.2.2.2.2.1⟩

theorem CQ_normSq_divR (z : CQ) (a : ℚ) :
    CQ.normSq (CQ.divR z a) = CQ.normSq z / (a * a) := by
  unfold CQ.normSq CQ.divR
  rw [div_mul_div_comm, div_mul_div_comm, div_add_div_same]

/-- Claim C7 (confirmed): immediately after the power-normalization step the
normalized estimate of a source has RMS power exactly 1 (hence within `eps`),
provided its pre-normalization RMS power `sqrt(P.mean())` is at least `eps`
(so the flooring of `aux` does not engage) — stated with the square-root
primitive assumed exact at the two points the computation touches. -/
theorem powerNorm_rms_one {N F T : ℕ} (pr : NumPrim) (eps : ℚ)
    (Y : Fin N → Fin F → Fin T → CQ) (s : Fin N)
    (heps : 0 < eps)
    (hpre : eps ≤ pr.sq (meanPow Y s))
    (hexact : pr.sq (meanPow Y s) * pr.sq (meanPow Y s) = meanPow Y s)
    (hsq1 : pr.sq 1 = 1) :
    meanPow (powerNormEst pr eps Y) s = 1 ∧
    |pr.sq (meanPow (powerNormEst pr eps Y) s) - 1| ≤ eps := by
  have haux : powerAux pr eps Y s = pr.sq (meanPow Y s) :=
    flr_of_ge hpre
  have hauxpos : 0 < powerAux pr eps Y s := lt_of_lt_of_le heps (flr_ge _ _)
  have hsum : (∑ f, ∑ t, CQ.normSq (CQ.divR (Y s f t) (powerAux pr eps Y s)))
      = (∑ f, ∑ t, CQ.normSq (Y s f t)) / (powerAux pr eps Y s * powerAux pr eps Y s) := by
    rw [Finset.sum_div]
    refine Finset.sum_congr rfl fun f _ => ?_
    rw [Finset.sum_div]
    refine Finset.sum_congr rfl fun t _ => ?_
    exact CQ_normSq_divR _ _
  have hmp : meanPow (powerNormEst pr eps Y) s
      = meanPow Y s / (powerAux pr eps Y s * powerAux pr eps Y s) := by
    unfold meanPow powerNormEst powSpec
    rw [hsum, div_right_comm]
  have hmean : meanPow (powerNormEst pr eps Y) s = 1 := by
    have hx : 0 < pr.sq (meanPow Y s) := haux ▸ hauxpos
    rw [hmp, haux, hexact]
    exact div_self (by rw [← hexact]; exact ne_of_gt (mul_pos hx hx))
  refine ⟨hmean, ?_⟩
  rw [hmean, hsq1]
  simpa using le_of_lt heps

/-- All-ones complex array over singleton axes. -/
def oneC3 : Fin 1 → Fin 1 → Fin 1 → CQ := fun _ _ _ => 1

theorem meanPow_oneC3 : meanPow oneC3 0 = 1 := by
  simp [meanPow, powSpec, oneC3, CQ.normSq, Fin.sum_univ_one]

/-- Claim C7, witness: the postcondition instantiated on a concrete all-ones
estimate whose mean power is 1. -/
theorem powerNorm_rms_one_witness :
    meanPow (powerNormEst prim0 epsDefault oneC3) 0 = 1 ∧
    |prim0.sq (meanPow (powerNormEst prim0 epsDefault oneC3) 0) - 1| ≤ epsDefault :=
  powerNorm_rms_one prim0 epsDefault oneC3 0
    (by norm_num [epsDefault])
    (by rw [meanPow_oneC3]; norm_num [prim0, epsDefault])
    (by rw [meanPow_oneC3]; norm_num [prim0])
    rfl

theorem gaussUpdateSourceModel_losses {N F T K : ℕ} (pr : NumPrim) (cfg : GCfg)
    (st : GState N F T K) :
    (gaussUpdateSourceModel pr cfg st).losses = st.losses := by
  unfold gaussUpdateSourceModel
  split <;> rfl

theorem gaussUpdateSpaceModel_losses {N F T K : ℕ} (pr : NumPrim) (cfg : GCfg)
    {st st2 : GState N F T K}
    (h : gaussUpdateSpaceModel pr cfg st = Except.ok st2) :
    st2.losses = st.losses := by
  unfold gaussUpdateSpaceModel at h
  cases hw : spaceLoop pr cfg (gaussU cfg st) (List.finRange N) st.W with
  | error e => rw [hw] at h; cases h
  | ok W1 =>
    rw [hw] at h
    cases h
    rfl

theorem gaussUpdateOnce_losses {N F T K : ℕ} (pr : NumPrim) (cfg : GCfg)
    {st st1 : GState N F T K}
    (h : gaussUpdateOnce pr cfg st = Except.ok st1) :
    st1.losses = st.losses := by
  unfold gaussUpdateOnce at h
  cases hsp : gaussUpdateSpaceModel pr cfg (gaussUpdateSourceModel pr cfg st) with
  | error e =>
    simp only [hsp] at h
    exact Except.noConfusion h
  | ok st2 =>
    have h2 : st2.losses = st.losses :=
      (gaussUpdateSpaceModel_losses pr cfg hsp).trans
        (gaussUpdateSourceModel_losses pr cfg st)
    simp only [hsp] at h
    cases hn : cfg.normalize with
    | off =>
      rw [hn] at h
      simp only [Except.ok.injEq] at h
      subst h
      exact h2
    | power =>
      rw [hn] at h
      cases hp : cfg.partitioning <;> simp [hp] at h <;>
        · subst h
          exact h2
    | projBack =>
      rw [hn] at h
      cases hp : cfg.partitioning
      · simp only [hp, Bool.false_eq_true, if_false] at h
        by_cases hd : ∀ f : Fin F,
            (Matrix.of fun c c2 => ∑ t, st2.X c f t * CQ.conj (st2.X c2 f t)).det ≠ 0
        · rw [if_pos hd] at h
          simp only [Except.ok.injEq] at h
          subst h
          exact h2
        · rw [if_neg hd] at h
          simp at h
      · simp [hp] at h

/-- The driver loop, when it completes with no exception, appends exactly one
loss entry per iteration. -/
theorem gaussLoop_ok_trajectory {N F T K : ℕ} (pr : NumPrim) (cfg : GCfg) :
    ∀ (k : ℕ) (st : GState N F T K),
    (gaussLoop pr cfg k st).2 = none →
    ∃ tail : List ℚ, (gaussLoop pr cfg k st).1.losses = st.losses ++ tail ∧
      tail.length = k := by
  intro k
  induction k with
  | zero =>
    intro st _
    exact ⟨[], by simp [gaussLoop], rfl⟩
  | succ k ih =>
    intro st h
    unfold gaussLoop at h ⊢
    cases hu : gaussUpdateOnce pr cfg st with
    | error e =>
      rw [hu] at h
      simp at h
    | ok st1 =>
      rw [hu] at h
      obtain ⟨tail, htail, hlen⟩ := ih (appendLoss pr cfg st1) h
      refine ⟨gaussLoss pr cfg st1 :: tail, ?_, by simp [hlen]⟩
      show (gaussLoop pr cfg k (appendLoss pr cfg st1)).1.losses
        = st.losses ++ (gaussLoss pr cfg st1 :: tail)
      rw [htail]
      show st1.losses ++ [gaussLoss pr cfg st1] ++ tail
        = st.losses ++ (gaussLoss pr cfg st1 :: tail)
      rw [gaussUpdateOnce_losses pr cfg hu, List.append_assoc]
      rfl

/-- A run that completes appends one baseline entry plus one entry per
iteration to the loss list it started from. -/
theorem gaussRun_ok_trajectory {N F T K : ℕ} (pr : NumPrim) (cfg : GCfg)
    (prevLosses : List ℚ) (X : Fin N → Fin F → Fin T → CQ)
    (base0 : Fin N → Fin F → Fin K → ℚ) (act0 : Fin N → Fin K → Fin T → ℚ)
    (baseP0 : Fin F → Fin K → ℚ) (actP0 : Fin K → Fin T → ℚ) (iteration : ℕ)
    (h : (gaussRun pr cfg prevLosses X base0 act0 baseP0 actP0 iteration).2 = none) :
    ∃ tail : List ℚ,
      (gaussRun pr cfg prevLosses X base0 act0 baseP0 actP0 iteration).1.losses
        = prevLosses ++ tail ∧
      tail.length = iteration + 1 := by
  unfold gaussRun at h ⊢
  obtain ⟨tail, htail, hlen⟩ := gaussLoop_ok_trajectory pr cfg iteration _ h
  refine ⟨gaussLoss pr cfg (gaussReset prevLosses X base0 act0 baseP0 actP0) :: tail,
    ?_, by simp [hlen]⟩
  rw [htail]
  show (gaussReset prevLosses X base0 act0 baseP0 actP0).losses
      ++ [gaussLoss pr cfg (gaussReset prevLosses X base0 act0 baseP0 actP0)] ++ tail
    = prevLosses ++ _
  rw [show (gaussReset prevLosses X base0 act0 baseP0 actP0).losses = prevLosses from rfl,
    List.append_assoc]
  rfl

@[simp] theorem CQ_divR_zero (q : ℚ) : CQ.divR 0 q = 0 := by
  apply CQ.ext <;> simp [CQ.divR]

theorem gaussUpdateSourceModel_X {N F T K : ℕ} (pr : NumPrim) (cfg : GCfg)
    (st : GState N F T K) :
    (gaussUpdateSourceModel pr cfg st).X = st.X := by
  unfold gaussUpdateSourceModel
  split <;> rfl

/-- An all-zero mixture over singleton axes. -/
def zeroC3 : Fin 1 → Fin 1 → Fin 1 → CQ := fun _ _ _ => 0

theorem gaussUpdateOnce_zeroX_errors (st : GState 1 1 1 1) (hX : st.X = zeroC3) :
    ∃ e, gaussUpdateOnce prim0 cfg0 st = Except.error e := by
  have hX1 : (gaussUpdateSourceModel prim0 cfg0 st).X = zeroC3 := by
    rw [gaussUpdateSourceModel_X]; exact hX
  have hU : ∀ f i j, gaussU cfg0 (gaussUpdateSourceModel prim0 cfg0 st) 0 f i j = 0 := by
    intro f i j
    simp [gaussU, hX1, zeroC3]
  have hdet : ((gaussUpdateSourceModel prim0 cfg0 st).W 0 *
      gaussU cfg0 (gaussUpdateSourceModel prim0 cfg0 st) 0 0).det = 0 := by
    rw [Matrix.det_fin_one, Matrix.mul_apply, Fin.sum_univ_one, hU]
    exact mul_zero _
  have hnot : ¬ ∀ f : Fin 1, ((gaussUpdateSourceModel prim0 cfg0 st).W f *
      gaussU cfg0 (gaussUpdateSourceModel prim0 cfg0 st) 0 f).det ≠ 0 := by
    intro hall
    exact hall 0 hdet
  have hstep : spaceStep prim0 cfg0 (gaussU cfg0 (gaussUpdateSourceModel prim0 cfg0 st) 0) 0
      (gaussUpdateSourceModel prim0 cfg0 st).W = Except.error "LinAlgError: Singular matrix" := by
    unfold spaceStep
    rw [dif_neg hnot]
  have hsp : gaussUpdateSpaceModel prim0 cfg0 (gaussUpdateSourceModel prim0 cfg0 st)
      = Except.error "LinAlgError: Singular matrix" := by
    unfold gaussUpdateSpaceModel
    rw [show (List.finRange 1) = [(0 : Fin 1)] from rfl]
    unfold spaceLoop
    rw [hstep]
    rfl
  refine ⟨"LinAlgError: Singular matrix", ?_⟩
  unfold gaussUpdateOnce
  simp only [hsp]

/-- Claim C9, counterexample: a run does **not** always append `n+1` loss
entries — with a zero mixture (a legitimate input) the first iteration's
spatial update hits an exactly singular per-bin system, `np.linalg.solve`
raises `LinAlgError`, and the run aborts with only the baseline entry in the
trajectory: 1 entry instead of the claimed 3+1 = 4. -/
theorem gaussRun_zero_mixture_aborts :
    (gaussRun prim0 cfg0 [] zeroC3 one3 one3 one2 one2 3).1.losses.length = 1 ∧
    (gaussRun prim0 cfg0 [] zeroC3 one3 one3 one2 one2 3).2 ≠ none ∧
    ¬ (gaussRun prim0 cfg0 [] zeroC3 one3 one3 one2 one2 3).1.losses.length = 3 + 1 := by
  obtain ⟨e, he⟩ := gaussUpdateOnce_zeroX_errors
    (appendLoss prim0 cfg0 (gaussReset [] zeroC3 one3 one3 one2 one2)) rfl
  have hrun : gaussRun prim0 cfg0 [] zeroC3 one3 one3 one2 one2 3
      = (appendLoss prim0 cfg0 (gaussReset [] zeroC3 one3 one3 one2 one2), some e) := by
    unfold gaussRun
    rw [show (3 : ℕ) = Nat.succ 2 from rfl]
    unfold gaussLoop
    rw [he]
  refine ⟨?_, ?_, ?_⟩ <;> rw [hrun] <;> simp [appendLoss, gaussReset]

/-- Claim C9, amended: provided every iteration's update completes without an
exception, a run appends exactly `n+1` entries to the trajectory — the
baseline before the first update and one entry after each iteration; an
iteration that raises aborts the run, leaving only the entries appended so
far (with a zero mixture: just the baseline). -/
theorem gaussRun_appends_baseline_and_iters {N F T K : ℕ} (pr : NumPrim)
    (cfg : GCfg) (prevLosses : List ℚ) (X : Fin N → Fin F → Fin T → CQ)
    (base0 : Fin N → Fin F → Fin K → ℚ) (act0 : Fin N → Fin K → Fin T → ℚ)
    (baseP0 : Fin F → Fin K → ℚ) (actP0 : Fin K → Fin T → ℚ) (iteration : ℕ)
    (h : (gaussRun pr cfg prevLosses X base0 act0 baseP0 actP0 iteration).2 = none) :
    ∃ tail : List ℚ,
      (gaussRun pr cfg prevLosses X base0 act0 baseP0 actP0 iteration).1.losses
        = prevLosses ++ tail ∧
      tail.length = iteration + 1 :=
  gaussRun_ok_trajectory pr cfg prevLosses X base0 act0 baseP0 actP0 iteration h

/-- Claim C9, witness: a zero-iteration run completes and appends exactly the
baseline entry. -/
theorem gaussRun_appends_baseline_and_iters_witness :
    ∃ tail : List ℚ,
      (gaussRun prim0 cfg0 [] oneC3 one3 one3 one2 one2 0).1.losses = [] ++ tail ∧
      tail.length = 0 + 1 :=
  gaussRun_appends_baseline_and_iters prim0 cfg0 [] oneC3 one3 one3 one2 one2 0 rfl

/-- One call of the run operation: its iteration count, its input mixture,
and the random factor draws consumed by `_reset`. -/
structure RunSpec (N F T K : ℕ) where
  iter : ℕ
  X : Fin N → Fin F → Fin T → CQ
  base0 : Fin N → Fin F → Fin K → ℚ
  act0 : Fin N → Fin K → Fin T → ℚ
  baseP0 : Fin F → Fin K → ℚ
  actP0 : Fin K → Fin T → ℚ

/-- Calling `__call__` repeatedly on the same driver object: each run starts
from the loss list the previous run left behind (`_reset` never clears
`self.loss`); an exception stops the sequence of calls. -/
def gaussRuns {N F T K : ℕ} (pr : NumPrim) (cfg : GCfg) :
    List (RunSpec N F T K) → List ℚ → List ℚ × Option String
  | [], acc => (acc, none)
  | sp :: rest, acc =>
    match (gaussRun pr cfg acc sp.X sp.base0 sp.act0 sp.baseP0 sp.actP0 sp.iter).2 with
    | some e =>
      ((gaussRun pr cfg acc sp.X sp.base0 sp.act0 sp.baseP0 sp.actP0 sp.iter).1.losses,
        some e)
    | none =>
      gaussRuns pr cfg rest
        (gaussRun pr cfg acc sp.X sp.base0 sp.act0 sp.baseP0 sp.actP0 sp.iter).1.losses

/-- Claim C10 (confirmed): the loss trajectory is initialized empty at
construction and is never cleared — `_reset` leaves it untouched — so `k`
completed runs with iteration counts `n_1 … n_k` leave a trajectory of
length `(n_1+1) + … + (n_k+1)`, with every earlier run's entries still in
place as a prefix before the later runs' entries. -/
theorem lossTrajectory_accumulates {N F T K : ℕ} (pr : NumPrim) (cfg : GCfg) :
    gaussFreshLosses = ([] : List ℚ) ∧
    (∀ (prevLosses : List ℚ) (X : Fin N → Fin F → Fin T → CQ)
      (base0 : Fin N → Fin F → Fin K → ℚ) (act0 : Fin N → Fin K → Fin T → ℚ)
      (baseP0 : Fin F → Fin K → ℚ) (actP0 : Fin K → Fin T → ℚ),
      (gaussReset prevLosses X base0 act0 baseP0 actP0).losses = prevLosses) ∧
    ∀ (specs : List (RunSpec N F T K)) (acc : List ℚ),
      (gaussRuns pr cfg specs acc).2 = none →
      ∃ tail : List ℚ, (gaussRuns pr cfg specs acc).1 = acc ++ tail ∧
        tail.length = (specs.map (fun sp => sp.iter + 1)).sum := by
  refine ⟨rfl, fun _ _ _ _ _ _ => rfl, ?_⟩
  intro specs
  induction specs with
  | nil =>
    intro acc _
    exact ⟨[], by simp [gaussRuns], rfl⟩
  | cons sp rest ih =>
    intro acc h
    unfold gaussRuns at h ⊢
    cases hres : (gaussRun pr cfg acc sp.X sp.base0 sp.act0 sp.baseP0 sp.actP0 sp.iter).2 with
    | some e =>
      rw [hres] at h
      simp at h
    | none =>
      rw [hres] at h
      obtain ⟨tail1, htail1, hlen1⟩ :=
        gaussRun_ok_trajectory pr cfg acc sp.X sp.base0 sp.act0 sp.baseP0 sp.actP0 sp.iter hres
      obtain ⟨tail2, htail2, hlen2⟩ :=
        ih (gaussRun pr cfg acc sp.X sp.base0 sp.act0 sp.baseP0 sp.actP0 sp.iter).1.losses h
      show ∃ tail : List ℚ,
        (gaussRuns pr cfg rest
          (gaussRun pr cfg acc sp.X sp.base0 sp.act0 sp.baseP0 sp.actP0 sp.iter).1.losses).1
            = acc ++ tail ∧
        tail.length = (List.map (fun sp => sp.iter + 1) (sp :: rest)).sum
      refine ⟨tail1 ++ tail2, ?_, ?_⟩
      · rw [htail2, htail1, List.append_assoc]
      · simp [hlen1, hlen2]

/-- A zero-iteration run specification on the all-ones mixture. -/
def spec0 : RunSpec 1 1 1 1 := ⟨0, oneC3, one3, one3, one2, one2⟩

/-- Claim C10, witness: two consecutive completed runs (zero iterations each)
leave `(0+1) + (0+1) = 2` accumulated entries on an initially empty list. -/
theorem lossTrajectory_accumulates_witness :
    ∃ tail : List ℚ, (gaussRuns prim0 cfg0 [spec0, spec0] []).1 = [] ++ tail ∧
      tail.length = ([spec0, spec0].map (fun sp => sp.iter + 1)).sum :=
  (lossTrajectory_accumulates prim0 cfg0).2.2 [spec0, spec0] [] rfl
